import Mathlib

/-!
Verification development for the GitLite-Mobile repository.

The TypeScript sources under consideration are
`src/components/FileExplorer.tsx` (directory listing, navigation, the
archive-expansion upload pipeline) and `src/services/github.ts` (the
content-tree REST client and the base64 text transcoding helpers).

Shallow embedding conventions:
* JavaScript strings are modelled as Lean `String` (well-formed Unicode),
  and as `List Char` where the source manipulates them character-wise.
* Effectful React handlers are modelled as pure functions returning the
  trace of effects they perform (state setters, remote calls), in program
  order, with the outcomes of fallible remote writes supplied by an oracle
  `writeOk : Nat → Bool` indexed by the position of the write call.
* Platform builtins used by the source (`btoa`, `atob`,
  `encodeURIComponent`, `decodeURIComponent`, `localeCompare`,
  `Array.prototype.sort`) are modelled after their standard behaviour;
  each model carries a doc comment saying exactly what it models.
-/

namespace GitLite

/-- Embeds the upload-path expression of `handleFileUpload`
(`path ? path + "/" + rel : rel`, FileExplorer.tsx:165 and 171): join the
current directory with a relative name using a single slash; an empty
current directory yields the relative name unchanged. -/
def joinPath (cur rel : String) : String :=
  if cur = "" then rel else cur ++ "/" ++ rel

/-- Embeds `file.name.endsWith(".zip")` (FileExplorer.tsx:153), the test
selecting the archive-extraction branch of the upload pipeline. -/
def endsWithZip (name : String) : Bool :=
  ".zip".data.isSuffixOf name.data

/-- The `type` field of a content entry: `"dir" | "file"` in the source
(`FileEntry` in src/types). -/
inductive EntryKind
  | dir
  | file
deriving DecidableEq

/-- Embeds the `FileEntry` interface (src/types). Fields never read by the
embedded operations (url, html_url, git_url, download_url, encoding) are
omitted; `content` is the optional base64 payload of a file response. -/
structure FileEntry where
  name : String
  path : String
  sha : String
  size : Nat
  type : EntryKind
  content : Option String := none
deriving DecidableEq

/-- An upstream response to the content-listing endpoint: an HTTP status
and the parsed JSON body, which is either a directory listing or a single
file (`FileEntry[] | FileEntry` in github.ts). -/
structure ContentsResponse where
  status : Nat
  body : List FileEntry ⊕ FileEntry
deriving DecidableEq

/-- Models `response.ok` of the fetch API: status in the range 200..299. -/
def responseOk (r : ContentsResponse) : Bool :=
  200 ≤ r.status && r.status ≤ 299

/-- Embeds `getContents` (github.ts:61-72): return the parsed body on a
2xx response, an empty listing on 404 (empty repo or bad path), and throw
("Failed to fetch contents") on any other status. -/
def getContents (r : ContentsResponse) : Except String (List FileEntry ⊕ FileEntry) :=
  if responseOk r then Except.ok r.body
  else if r.status = 404 then Except.ok (Sum.inl [])
  else Except.error "Failed to fetch contents"

/-! ### Directory-listing sort (loadContents, FileExplorer.tsx:48-52) -/

/-- Lexicographic three-way comparison of two lists of naturals. -/
def lexOrdNat : List Nat → List Nat → Ordering
  | [], [] => Ordering.eq
  | [], _ :: _ => Ordering.lt
  | _ :: _, [] => Ordering.gt
  | a :: as, b :: bs =>
    if a < b then Ordering.lt else if b < a then Ordering.gt else lexOrdNat as bs

/-- Primary collation weight of a character (case-folded code point). -/
def primaryKey (c : Char) : Nat := c.toLower.toNat

/-- Tertiary collation weight: in the CLDR root collation a case
difference is tertiary, with lowercase sorting before uppercase. -/
def tertiaryKey (c : Char) : Nat := if c.isUpper then 1 else 0

/-- Models the platform builtin `String.prototype.localeCompare` under the
default locale, restricted to the ASCII range: the CLDR root collation
compares primary weights (case-insensitive) lexicographically first and
breaks ties on the tertiary (case) level, lowercase before uppercase.
In particular "a".localeCompare("B") is negative, unlike code-point order. -/
def localeCompare (a b : String) : Int :=
  match lexOrdNat (a.data.map primaryKey) (b.data.map primaryKey) with
  | Ordering.lt => -1
  | Ordering.gt => 1
  | Ordering.eq =>
    match lexOrdNat (a.data.map tertiaryKey) (b.data.map tertiaryKey) with
    | Ordering.lt => -1
    | Ordering.gt => 1
    | Ordering.eq => 0

/-- Embeds the sort comparator of `loadContents` (FileExplorer.tsx:49-52):
equal kinds compare by `localeCompare` on names, otherwise directories
come first. -/
def cmpEntries (a b : FileEntry) : Int :=
  if a.type = b.type then localeCompare a.name b.name
  else if a.type = EntryKind.dir then -1 else 1

/-- Stable insertion of one entry into a list sorted by `cmpEntries`. -/
def insertEntry (x : FileEntry) : List FileEntry → List FileEntry
  | [] => [x]
  | y :: ys => if cmpEntries x y ≤ 0 then x :: y :: ys else y :: insertEntry x ys

/-- Models `data.sort(comparator)` of `loadContents` (FileExplorer.tsx:49):
`Array.prototype.sort` is required to produce a stable order consistent
with the comparator; a stable insertion sort realises that contract. -/
def sortContents : List FileEntry → List FileEntry
  | [] => []
  | x :: xs => insertEntry x (sortContents xs)

/-- Case-sensitive lexicographic (code-point) order on strings, the order
named by the specification sentence under scrutiny in claim C3. -/
def csLexLe (a b : String) : Bool :=
  match lexOrdNat (a.data.map Char.toNat) (b.data.map Char.toNat) with
  | Ordering.gt => false
  | _ => true

/-! ### Effect traces of the FileExplorer handlers -/

/-- One observable effect of a FileExplorer handler, in program order:
React state setters (`set…`), remote calls of the content client
(`remoteGet`, `write`, `remoteDelete`), the `loadContents()` re-entry
from the upload handler (`refresh`), the browser `confirm` dialog, and
the clearing of the two file-input elements. A `write p ok` records a
`putFile` attempt at target path `p` with outcome `ok`. -/
inductive Ev
  | setShowActions (b : Bool)
  | setUploading (b : Bool)
  | setLoading (b : Bool)
  | setStatus (msg : String)
  | setContents (entries : List FileEntry)
  | setViewingFile (f : Option FileEntry)
  | setFileContent (s : String)
  | setIsEditing (b : Bool)
  | remoteGet (path : String)
  | write (targetPath : String) (ok : Bool)
  | remoteDelete (path : String) (ok : Bool)
  | refresh
  | confirmDialog (msg : String)
  | clearInputs
deriving DecidableEq

/-- The `putFile` attempts of a trace, as (target path, outcome) pairs. -/
def writeEvents (evs : List Ev) : List (String × Bool) :=
  evs.filterMap fun e =>
    match e with
    | Ev.write p ok => some (p, ok)
    | _ => none

/-- The status-text updates of a trace, in order. -/
def statusEvents (evs : List Ev) : List String :=
  evs.filterMap fun e =>
    match e with
    | Ev.setStatus m => some m
    | _ => none

/-- How many times a trace re-invokes `loadContents` (refreshes the
current directory listing). -/
def countRefresh (evs : List Ev) : Nat :=
  evs.countP fun e =>
    match e with
    | Ev.refresh => true
    | _ => false

/-- The events of a trace that mutate displayed React state (everything
rendered by the component); remote calls and the browser confirm dialog
are not displayed state. -/
def displayEvents (evs : List Ev) : List Ev :=
  evs.filter fun e =>
    match e with
    | Ev.setShowActions _ => true
    | Ev.setUploading _ => true
    | Ev.setLoading _ => true
    | Ev.setStatus _ => true
    | Ev.setContents _ => true
    | Ev.setViewingFile _ => true
    | Ev.setFileContent _ => true
    | Ev.setIsEditing _ => true
    | _ => false

/-- Scanner for `statusBetweenWrites`: `pending` records that a write has
happened with no status update since. -/
def sbwAux : List Ev → Bool → Bool
  | [], _ => true
  | Ev.write _ _ :: rest, pending => if pending then false else sbwAux rest true
  | Ev.setStatus _ :: rest, _ => sbwAux rest false
  | _ :: rest, pending => sbwAux rest pending

/-- True iff between any two consecutive `putFile` attempts of the trace
at least one status update occurs — the observable content of per-file
live progress. -/
def statusBetweenWrites (evs : List Ev) : Bool :=
  sbwAux evs false

/-! ### The archive-expansion upload pipeline (handleFileUpload,
FileExplorer.tsx:140-186) -/

/-- One entry of a loaded archive container as enumerated by
`Object.keys(zipContent.files)`: its name inside the archive and whether
it is a directory marker (`entry.dir`). -/
structure ZipEntry where
  name : String
  dir : Bool
deriving DecidableEq

/-- One element of `e.target.files`: its `name`, its
`webkitRelativePath` (modelled as `""` when absent, matching JavaScript
falsiness), and, for selections opened as archives, the entry list the
archive library enumerates in container-native order. -/
structure Selection where
  name : String
  webkitRelativePath : String
  zipEntries : List ZipEntry
deriving DecidableEq

/-- Embeds the inner loop of the archive branch (FileExplorer.tsx:155-163):
directory markers are skipped; every other entry is written immediately at
`joinPath(cur, entryName)`. `k` is the index of the next `putFile` call;
the result is (events, next index, completed without throwing). -/
def runZipEntries (cur : String) (writeOk : Nat → Bool) (k : Nat) :
    List ZipEntry → List Ev × Nat × Bool
  | [] => ([], k, true)
  | e :: rest =>
    if e.dir then runZipEntries cur writeOk k rest
    else if writeOk k then
      let r := runZipEntries cur writeOk (k + 1) rest
      (Ev.write (joinPath cur e.name) true :: r.1, r.2)
    else ([Ev.write (joinPath cur e.name) false], k + 1, false)

/-- Embeds the selection loop of `handleFileUpload`
(FileExplorer.tsx:150-175): archive selections update the status and run
the entry loop; other selections perform a single write at the joined
relative path (`webkitRelativePath || name`). A thrown write aborts the
loop. -/
def runSelections (cur : String) (writeOk : Nat → Bool) (k : Nat) :
    List Selection → List Ev × Nat × Bool
  | [] => ([], k, true)
  | f :: rest =>
    if endsWithZip f.name then
      let z := runZipEntries cur writeOk k f.zipEntries
      if z.2.2 then
        let r := runSelections cur writeOk z.2.1 rest
        (Ev.setStatus ("Extracting " ++ f.name ++ "...") :: z.1 ++ r.1, r.2)
      else (Ev.setStatus ("Extracting " ++ f.name ++ "...") :: z.1, z.2)
    else
      let rel := if f.webkitRelativePath = "" then f.name else f.webkitRelativePath
      if writeOk k then
        let r := runSelections cur writeOk (k + 1) rest
        (Ev.write (joinPath cur rel) true :: r.1, r.2)
      else ([Ev.write (joinPath cur rel) false], k + 1, false)

/-- Embeds `handleFileUpload` (FileExplorer.tsx:140-186): close the action
sheet, guard on a non-empty selection list and a present token, then run
the selection loop inside try/catch; on success status "Upload complete!"
and a single listing refresh, on a thrown write the error status; the
finally block resets the uploading flag and clears the input elements. -/
def handleFileUpload (hasToken : Bool) (cur : String) (files : List Selection)
    (writeOk : Nat → Bool) : List Ev :=
  Ev.setShowActions false ::
  if files.isEmpty || !hasToken then []
  else
    Ev.setUploading true ::
    Ev.setStatus ("Processing " ++ toString files.length ++ " files...") ::
    (let r := runSelections cur writeOk 0 files
     r.1 ++
      (if r.2.2 then [Ev.setStatus "Upload complete!", Ev.refresh]
       else [Ev.setStatus "Error during upload."]) ++
      [Ev.setUploading false, Ev.clearInputs])

/-- The target paths the pipeline will attempt for the entries of one
archive: one per non-directory entry, in container order. -/
def zipWrites (cur : String) (entries : List ZipEntry) : List String :=
  (entries.filter fun e => !e.dir).map fun e => joinPath cur e.name

/-- All target paths the pipeline will attempt for a selection batch, in
order, ignoring failures. -/
def plannedWrites (cur : String) : List Selection → List String
  | [] => []
  | f :: rest =>
    (if endsWithZip f.name then zipWrites cur f.zipEntries
     else [joinPath cur (if f.webkitRelativePath = "" then f.name else f.webkitRelativePath)]) ++
      plannedWrites cur rest

/-- The write attempts actually performed on a planned path list under the
outcome oracle: successes until the first failure, which is attempted and
aborts the rest. -/
def processPlanned (writeOk : Nat → Bool) (k : Nat) : List String → List (String × Bool)
  | [] => []
  | p :: ps =>
    if writeOk k then (p, true) :: processPlanned writeOk (k + 1) ps else [(p, false)]

/-- True iff the oracle grants the `n` consecutive writes starting at
index `k`. -/
def okUpTo (writeOk : Nat → Bool) (k n : Nat) : Bool :=
  (List.range' k n).all writeOk

/-- Embeds `loadContents` (FileExplorer.tsx:42-61): silently return with
no token; otherwise set the loading flag, clear the status, fetch the
listing, sort and display it when the body is an array, report an error
status when the fetch throws, and finally clear the loading flag. -/
def loadContents (hasToken : Bool) (curPath : String) (resp : ContentsResponse) : List Ev :=
  if !hasToken then []
  else
    Ev.setLoading true :: Ev.setStatus "" :: Ev.remoteGet curPath ::
      ((match getContents resp with
        | Except.ok (Sum.inl entries) => [Ev.setContents (sortContents entries)]
        | Except.ok (Sum.inr _) => []
        | Except.error _ => [Ev.setStatus "Error loading folder contents."]) ++
        [Ev.setLoading false])

/-! ### Navigation (handleNavigate / handleNavigateUp,
FileExplorer.tsx:63-81). Paths are manipulated character-wise here, so
they are modelled as `List Char`. -/

/-- Models `s.split(sep)` of JavaScript on a character list: splitting the
empty string yields one empty group, and every separator occurrence
delimits groups. -/
def splitChar (sep : Char) : List Char → List (List Char)
  | [] => [[]]
  | c :: cs =>
    match splitChar sep cs with
    | [] => [[]]
    | g :: gs => if c = sep then [] :: g :: gs else (c :: g) :: gs

/-- Models `parts.join(sep)` of JavaScript on a character list. -/
def joinChar (sep : Char) : List (List Char) → List Char
  | [] => []
  | [g] => g
  | g :: g2 :: gs => g ++ sep :: joinChar sep (g2 :: gs)

/-- Embeds `handleNavigate` (FileExplorer.tsx:63-65):
`setPath(prev => prev ? prev + "/" + folderName : folderName)`. -/
def handleNavigate (prev folderName : List Char) : List Char :=
  if prev = [] then folderName else prev ++ '/' :: folderName

/-- The three possible outcomes of `handleNavigateUp`. -/
inductive NavUp
  | closeFile
  | back
  | setPath (p : List Char)
deriving DecidableEq

/-- Embeds `handleNavigateUp` (FileExplorer.tsx:67-81): with a file open,
close it; at the root, leave the explorer; otherwise split the path on
slashes, pop the last component and rejoin. -/
def handleNavigateUp (viewingOpen : Bool) (path : List Char) : NavUp :=
  if viewingOpen then NavUp.closeFile
  else if path = [] then NavUp.back
  else NavUp.setPath (joinChar '/' (splitChar '/' path).dropLast)

/-- A path with no leading and no trailing separator. -/
def noEdgeSep (q : List Char) : Prop :=
  q.head? ≠ some '/' ∧ q.getLast? ≠ some '/'

/-! ### UTF-8-safe base64 transcoding (toBase64 / fromBase64,
github.ts:133-148). The source composes the platform builtins
`encodeURIComponent`, a percent-escape replacement, `btoa`, `atob` and
`decodeURIComponent`; each builtin is modelled below after its
standardised behaviour, character-wise on `List Char`. -/

/-- The UTF-8 byte sequence of a Unicode code point `n < 0x110000`. -/
def utf8EncodeCp (n : Nat) : List Nat :=
  if n < 128 then [n]
  else if n < 2048 then [192 + n / 64, 128 + n % 64]
  else if n < 65536 then [224 + n / 4096, 128 + n / 64 % 64, 128 + n % 64]
  else [240 + n / 262144, 128 + n / 4096 % 64, 128 + n / 64 % 64, 128 + n % 64]

/-- The UTF-8 bytes of a character sequence. -/
def utf8EncodeChars (cs : List Char) : List Nat :=
  cs.flatMap fun c => utf8EncodeCp c.toNat

/-- The characters `encodeURIComponent` leaves unescaped:
ASCII letters, digits, and `- _ . ! ~ * ' ( )`. -/
def isUriUnreserved (c : Char) : Bool :=
  (65 ≤ c.toNat && c.toNat ≤ 90) || (97 ≤ c.toNat && c.toNat ≤ 122) ||
    (48 ≤ c.toNat && c.toNat ≤ 57) ||
    (c.toNat = 45 || c.toNat = 95 || c.toNat = 46 || c.toNat = 33 ||
     c.toNat = 126 || c.toNat = 42 || c.toNat = 39 || c.toNat = 40 || c.toNat = 41)

/-- Uppercase hexadecimal digit character for `x < 16`. -/
def hexDigitUpper (x : Nat) : Char :=
  if x < 10 then Char.ofNat (48 + x) else Char.ofNat (55 + x)

/-- Lowercase hexadecimal digit character for `x < 16`
(`Number.prototype.toString(16)` emits lowercase digits). -/
def hexDigitLower (x : Nat) : Char :=
  if x < 10 then Char.ofNat (48 + x) else Char.ofNat (87 + x)

/-- The value of a hexadecimal digit character (either case), as parsed
by a `decodeURIComponent` escape sequence. -/
def hexVal (c : Char) : Option Nat :=
  if 48 ≤ c.toNat && c.toNat ≤ 57 then some (c.toNat - 48)
  else if 65 ≤ c.toNat && c.toNat ≤ 70 then some (c.toNat - 55)
  else if 97 ≤ c.toNat && c.toNat ≤ 102 then some (c.toNat - 87)
  else none

/-- Models the platform builtin `encodeURIComponent`: unreserved
characters pass through, every other character is replaced by the
uppercase percent escapes of its UTF-8 bytes. -/
def encodeURIComponentChars (cs : List Char) : List Char :=
  cs.flatMap fun c =>
    if isUriUnreserved c then [c]
    else (utf8EncodeCp c.toNat).flatMap fun b =>
      ['%', hexDigitUpper (b / 16), hexDigitUpper (b % 16)]

/-- True iff `c` is an uppercase hexadecimal digit (the character class
of the regex in `toBase64`). -/
def isHexUpper (c : Char) : Bool :=
  (48 ≤ c.toNat && c.toNat ≤ 57) || (65 ≤ c.toNat && c.toNat ≤ 70)

/-- Value of an uppercase hexadecimal digit. -/
def hexValUpper (c : Char) : Nat :=
  if c.toNat ≤ 57 then c.toNat - 48 else c.toNat - 55

/-- Embeds the escape replacement of `toBase64` (github.ts:134-137): the
global regex replace of every `%XX` (uppercase hex) by the character with
code `XX`, scanning left to right. -/
def percentToByteChars : List Char → List Char
  | '%' :: h :: l :: rest =>
    if isHexUpper h && isHexUpper l then
      Char.ofNat (16 * hexValUpper h + hexValUpper l) :: percentToByteChars rest
    else '%' :: percentToByteChars (h :: l :: rest)
  | c :: rest => c :: percentToByteChars rest
  | [] => []

/-- The base64 alphabet character of a sextet `n < 64`. -/
def sextetChar (n : Nat) : Char :=
  if n < 26 then Char.ofNat (65 + n)
  else if n < 52 then Char.ofNat (97 + (n - 26))
  else if n < 62 then Char.ofNat (48 + (n - 52))
  else if n = 62 then '+' else '/'

/-- Base64 encoding of a byte list, three bytes to four characters, with
`=` padding. -/
def base64EncodeBytes : List Nat → List Char
  | [] => []
  | [a] => [sextetChar (a / 4), sextetChar (a % 4 * 16), '=', '=']
  | [a, b] => [sextetChar (a / 4), sextetChar (a % 4 * 16 + b / 16), sextetChar (b % 16 * 4), '=']
  | a :: b :: c :: rest =>
    sextetChar (a / 4) :: sextetChar (a % 4 * 16 + b / 16) ::
      sextetChar (b % 16 * 4 + c / 64) :: sextetChar (c % 64) :: base64EncodeBytes rest

/-- Models the platform builtin `window.btoa`: defined only when every
character is a byte value (≤ 255, otherwise it throws), producing the
base64 encoding of those bytes. -/
def btoaChars (cs : List Char) : Option (List Char) :=
  if cs.all fun c => c.toNat ≤ 255 then some (base64EncodeBytes (cs.map Char.toNat))
  else none

/-- The sextet value of a base64 alphabet character. -/
def sextetVal (c : Char) : Option Nat :=
  if 65 ≤ c.toNat && c.toNat ≤ 90 then some (c.toNat - 65)
  else if 97 ≤ c.toNat && c.toNat ≤ 122 then some (c.toNat - 71)
  else if 48 ≤ c.toNat && c.toNat ≤ 57 then some (c.toNat + 4)
  else if c = '+' then some 62
  else if c = '/' then some 63
  else none

/-- Base64 decoding to bytes: groups of four characters, the final group
optionally `=`-padded; anything else is a decoding error. -/
def atobDecode : List Char → Option (List Nat)
  | [] => some []
  | c1 :: c2 :: c3 :: c4 :: rest => do
    let s1 ← sextetVal c1
    let s2 ← sextetVal c2
    if c3 = '=' then
      if c4 = '=' ∧ rest = [] then pure [s1 * 4 + s2 / 16] else none
    else do
      let s3 ← sextetVal c3
      if c4 = '=' then
        if rest = [] then pure [s1 * 4 + s2 / 16, s2 % 16 * 16 + s3 / 4] else none
      else do
        let s4 ← sextetVal c4
        let bs ← atobDecode rest
        pure ((s1 * 4 + s2 / 16) :: (s2 % 16 * 16 + s3 / 4) :: (s3 % 4 * 64 + s4) :: bs)
  | _ => none

/-- Models the platform builtin `window.atob`: base64-decode to a string
whose characters are the decoded byte values. -/
def atobChars (cs : List Char) : Option (List Char) :=
  (atobDecode cs).map fun bs => bs.map Char.ofNat

/-- Embeds the per-character mapping of `fromBase64` (github.ts:144-146):
`"%" + ("00" + code.toString(16)).slice(-2)` for a byte value. -/
def byteToPercentHex (b : Nat) : List Char :=
  ['%', hexDigitLower (b / 16), hexDigitLower (b % 16)]

/-- One lexical unit of a `decodeURIComponent` input: a literal character
or a percent-escaped byte. -/
inductive UriTok
  | raw (c : Char)
  | byte (b : Nat)
deriving DecidableEq

/-- Lexes a `decodeURIComponent` input: every `%` must begin a two-digit
hexadecimal escape, otherwise the builtin throws URIError. -/
def uriTokens : List Char → Option (List UriTok)
  | [] => some []
  | '%' :: h :: l :: rest => do
    let hv ← hexVal h
    let lv ← hexVal l
    let ts ← uriTokens rest
    pure (UriTok.byte (16 * hv + lv) :: ts)
  | '%' :: _ => none
  | c :: rest => (uriTokens rest).map fun ts => UriTok.raw c :: ts

/-- The value of a UTF-8 continuation byte, when `b` is one. -/
def contVal (b : Nat) : Option Nat :=
  if 128 ≤ b && b < 192 then some (b - 128) else none

/-!
UTF-8 decoding of the byte escapes of a `decodeURIComponent` input,
rejecting malformed, overlong, surrogate and out-of-range sequences as
the builtin does. The lead byte selects the sequence length; the helpers
`utf8Dec2`, `utf8Dec3` and `utf8Dec4` consume the continuation bytes of a
2-, 3- or 4-byte sequence.
-/
mutual

def utf8DecodeTokens : List UriTok → Option (List Char)
  | [] => some []
  | UriTok.raw c :: rest => (utf8DecodeTokens rest).map fun cs => c :: cs
  | UriTok.byte b :: rest =>
    if b < 128 then (utf8DecodeTokens rest).map fun cs => Char.ofNat b :: cs
    else if b < 192 then none
    else if b < 224 then utf8Dec2 b rest
    else if b < 240 then utf8Dec3 b rest
    else if b < 248 then utf8Dec4 b rest
    else none

def utf8Dec2 (b : Nat) : List UriTok → Option (List Char)
  | UriTok.byte b2 :: rest2 =>
    match contVal b2 with
    | some v2 =>
      if 128 ≤ (b - 192) * 64 + v2 then
        (utf8DecodeTokens rest2).map fun cs => Char.ofNat ((b - 192) * 64 + v2) :: cs
      else none
    | none => none
  | _ => none

def utf8Dec3 (b : Nat) : List UriTok → Option (List Char)
  | UriTok.byte b2 :: UriTok.byte b3 :: rest2 =>
    match contVal b2, contVal b3 with
    | some v2, some v3 =>
      if 2048 ≤ (b - 224) * 4096 + v2 * 64 + v3 ∧
          ¬(55296 ≤ (b - 224) * 4096 + v2 * 64 + v3 ∧
            (b - 224) * 4096 + v2 * 64 + v3 ≤ 57343) then
        (utf8DecodeTokens rest2).map fun cs =>
          Char.ofNat ((b - 224) * 4096 + v2 * 64 + v3) :: cs
      else none
    | _, _ => none
  | _ => none

def utf8Dec4 (b : Nat) : List UriTok → Option (List Char)
  | UriTok.byte b2 :: UriTok.byte b3 :: UriTok.byte b4 :: rest2 =>
    match contVal b2, contVal b3, contVal b4 with
    | some v2, some v3, some v4 =>
      if 65536 ≤ (b - 240) * 262144 + v2 * 4096 + v3 * 64 + v4 ∧
          (b - 240) * 262144 + v2 * 4096 + v3 * 64 + v4 ≤ 1114111 then
        (utf8DecodeTokens rest2).map fun cs =>
          Char.ofNat ((b - 240) * 262144 + v2 * 4096 + v3 * 64 + v4) :: cs
      else none
    | _, _, _ => none
  | _ => none

end

/-- Models the platform builtin `decodeURIComponent`: lex the escapes and
UTF-8-decode them. -/
def decodeURIComponentChars (cs : List Char) : Option (List Char) :=
  (uriTokens cs).bind utf8DecodeTokens

/-- Embeds `toBase64` (github.ts:133-139):
`btoa(encodeURIComponent(str).replace(/%XX/g, byteChar))`; `none` models
a thrown exception (unreachable for well-formed strings). -/
def toBase64 (s : String) : Option String :=
  (btoaChars (percentToByteChars (encodeURIComponentChars s.data))).map String.mk

/-- Embeds `fromBase64` (github.ts:142-148):
`decodeURIComponent(atob(str).map(byteToPercentHex).join(""))`; `none`
models a thrown exception. -/
def fromBase64 (s : String) : Option String :=
  (atobChars s.data).bind fun byteStr =>
    (decodeURIComponentChars (byteStr.flatMap fun c => byteToPercentHex c.toNat)).map String.mk

/-! ### The remaining FileExplorer handlers, as effect traces -/

/-- Embeds `data.content.replace(/\n/g, "")` (FileExplorer.tsx:92). -/
def stripNewlines (s : String) : String :=
  String.mk (s.data.filter fun c => c ≠ Char.ofNat 10)

/-- Embeds `handleFileClick` (FileExplorer.tsx:84-99): silently return
with no token; otherwise fetch the path; when the body is a single entry
with truthy content, open the viewer and decode the newline-stripped
base64 payload; a thrown fetch or decode reports a status. -/
def handleFileClick (hasToken : Bool) (file : FileEntry) (resp : ContentsResponse) : List Ev :=
  if !hasToken then []
  else
    Ev.setLoading true :: Ev.remoteGet file.path ::
      ((match getContents resp with
        | Except.ok (Sum.inl _) => []
        | Except.ok (Sum.inr e) =>
          match e.content with
          | none => []
          | some c =>
            if c = "" then []
            else
              Ev.setViewingFile (some file) ::
                (match fromBase64 (stripNewlines c) with
                 | some txt => [Ev.setFileContent txt]
                 | none => [Ev.setStatus "Failed to load file."])
        | Except.error _ => [Ev.setStatus "Failed to load file."]) ++
        [Ev.setLoading false])

/-- Embeds `handleDelete` (FileExplorer.tsx:101-115): the confirm dialog
is shown first; a declined dialog or a missing token returns silently;
otherwise the delete call runs with the given outcome. -/
def handleDelete (hasToken confirmAns : Bool) (file : FileEntry) (deleteOk : Bool) : List Ev :=
  Ev.confirmDialog ("Delete " ++ file.name ++ "?") ::
    if !confirmAns || !hasToken then []
    else
      Ev.setUploading true ::
        (if deleteOk then
          [Ev.remoteDelete file.path true, Ev.setViewingFile none, Ev.refresh,
           Ev.setStatus "File deleted."]
         else [Ev.remoteDelete file.path false, Ev.setStatus "Failed to delete file."]) ++
        [Ev.setUploading false]

/-- Embeds `handleSaveFile` (FileExplorer.tsx:117-138): no open file or no
token returns silently; otherwise the save write runs with the given
outcome. -/
def handleSaveFile (hasToken : Bool) (viewingFile : Option FileEntry)
    (editContent : String) (putOk : Bool) : List Ev :=
  match viewingFile with
  | none => []
  | some vf =>
    if !hasToken then []
    else
      Ev.setUploading true ::
        (if putOk then
          [Ev.write vf.path true, Ev.setFileContent editContent, Ev.setIsEditing false,
           Ev.setStatus "File saved successfully."]
         else [Ev.write vf.path false, Ev.setStatus "Failed to save changes."]) ++
        [Ev.setUploading false]

end GitLite

namespace GitLite

/-- Claim C8: on a 404 response the content-listing operation returns an
empty listing rather than throwing; every other non-2xx response makes it
throw. -/
theorem getContents_404_or_error (r : ContentsResponse) :
    (r.status = 404 → getContents r = Except.ok (Sum.inl [])) ∧
    (responseOk r = false → r.status ≠ 404 →
      getContents r = Except.error "Failed to fetch contents") := by
  constructor
  · intro h404
    have hok : responseOk r = false := by
      simp [responseOk, h404]
    simp [getContents, hok, h404]
  · intro hok hne
    simp [getContents, hok, hne]

/-- Claim C8 witness: a 404 response yields the empty listing; a 500
response is not ok and throws. -/
theorem getContents_404_or_error_witness :
    getContents ⟨404, Sum.inl []⟩ = Except.ok (Sum.inl []) ∧
    responseOk ⟨500, Sum.inl []⟩ = false ∧
    getContents ⟨500, Sum.inl []⟩ = Except.error "Failed to fetch contents" :=
  ⟨(getContents_404_or_error ⟨404, Sum.inl []⟩).1 rfl, by decide,
   (getContents_404_or_error ⟨500, Sum.inl []⟩).2 (by decide) (by decide)⟩

/-- Claim C7: the upload target path joins the current directory and the
relative name with a single slash, the empty current directory adding no
leading separator; checked on the three specified examples and in
general. -/
theorem joinPath_spec (cur rel : String) (h : cur ≠ "") :
    joinPath "" rel = rel ∧ joinPath cur rel = cur ++ "/" ++ rel ∧
    joinPath "" "a.txt" = "a.txt" ∧ joinPath "src" "a.txt" = "src/a.txt" ∧
    joinPath "src/lib" "x/y.txt" = "src/lib/x/y.txt" :=
  ⟨by simp [joinPath], by simp [joinPath, h], by decide, by decide, by decide⟩

/-- Claim C7 witness: instantiation at a non-empty current directory. -/
theorem joinPath_spec_witness :
    ("src" : String) ≠ "" ∧ joinPath "src" "a.txt" = "src/a.txt" :=
  ⟨by decide, (joinPath_spec "src" "a.txt" (by decide)).2.1⟩

/-- Claim C9 counterexample: with no token present, the upload handler
still closes the action sheet — `setShowActions false` is a displayed
React-state mutation performed before the token guard, so the operation
does not leave displayed state unaltered. -/
theorem upload_noToken_alters_display :
    handleFileUpload false "docs" [⟨"a.txt", "", []⟩] (fun _ => true) =
      [Ev.setShowActions false] ∧
    displayEvents (handleFileUpload false "docs" [⟨"a.txt", "", []⟩] (fun _ => true)) ≠ [] :=
  ⟨by decide, by decide⟩

/-- Claim C9 as amended: with no token, every content or upload operation
returns silently with no remote call and no thrown error; listing,
opening and saving change no state at all, deletion shows only its
confirm dialog, and upload performs exactly the action-sheet close that
precedes its token guard. -/
theorem noToken_silent_noop (p : String) (r : ContentsResponse) (f : FileEntry)
    (vf : Option FileEntry) (ec : String) (ca ok : Bool) (cur : String)
    (files : List Selection) (w : Nat → Bool) :
    loadContents false p r = [] ∧
    handleFileClick false f r = [] ∧
    handleSaveFile false vf ec ok = [] ∧
    handleDelete false ca f ok = [Ev.confirmDialog ("Delete " ++ f.name ++ "?")] ∧
    handleFileUpload false cur files w = [Ev.setShowActions false] := by
  refine ⟨rfl, rfl, ?_, ?_, ?_⟩
  · cases vf <;> simp [handleSaveFile]
  · simp [handleDelete]
  · simp [handleFileUpload]

/-! ### Navigation lemmas (claim C10) -/

theorem splitChar_ne_nil (sep : Char) (cs : List Char) : splitChar sep cs ≠ [] := by
  induction cs with
  | nil => simp [splitChar]
  | cons c cs ih =>
    rcases h : splitChar sep cs with _ | ⟨g, gs⟩
    · exact absurd h ih
    · by_cases hc : c = sep <;> simp [splitChar, h, hc]

theorem joinChar_splitChar (sep : Char) (cs : List Char) :
    joinChar sep (splitChar sep cs) = cs := by
  induction cs with
  | nil => rfl
  | cons c cs ih =>
    rcases h : splitChar sep cs with _ | ⟨g, gs⟩
    · exact absurd h (splitChar_ne_nil sep cs)
    · rw [h] at ih
      by_cases hc : c = sep
      · subst hc
        simp only [splitChar, h, if_pos rfl, joinChar]
        cases gs with
        | nil => simpa [joinChar] using ih
        | cons g2 gs => simpa [joinChar] using ih
      · simp only [splitChar, h, if_neg hc]
        cases gs with
        | nil => simpa [joinChar] using congrArg (c :: ·) ih
        | cons g2 gs =>
          simp only [joinChar] at ih ⊢
          rw [← ih]
          simp

theorem splitChar_append_sep (sep : Char) (xs ys : List Char) :
    splitChar sep (xs ++ sep :: ys) = splitChar sep xs ++ splitChar sep ys := by
  induction xs with
  | nil =>
    rcases h : splitChar sep ys with _ | ⟨g, gs⟩
    · exact absurd h (splitChar_ne_nil sep ys)
    · simp [splitChar, h]
  | cons x xs ih =>
    rcases h : splitChar sep xs with _ | ⟨g, gs⟩
    · exact absurd h (splitChar_ne_nil sep xs)
    · rw [h] at ih
      show splitChar sep (x :: (xs ++ sep :: ys)) = splitChar sep (x :: xs) ++ splitChar sep ys
      rw [splitChar, splitChar, ih, h, List.cons_append]
      by_cases hc : x = sep <;> simp [hc]

theorem splitChar_no_sep (sep : Char) (f : List Char) (hf : sep ∉ f) :
    splitChar sep f = [f] := by
  induction f with
  | nil => rfl
  | cons c f ih =>
    have hc : c ≠ sep := fun h => hf (h ▸ List.mem_cons_self c f)
    have hrest : sep ∉ f := fun h => hf (List.mem_cons_of_mem c h)
    simp [splitChar, ih hrest, hc]

theorem mem_of_getLast?_eq {l : List Char} {x : Char} (h : l.getLast? = some x) : x ∈ l := by
  have hx : x ∈ l.getLast? := h
  rcases List.mem_getLast?_eq_getLast hx with ⟨hne2, hg⟩
  exact hg ▸ List.getLast_mem hne2

/-- Claim C10: navigating into a folder (non-empty, slash-free name) and
navigating up (with no file open) restores the previous path exactly, and
the intermediate path acquires no leading or trailing separator. -/
theorem navigate_up_inverse (p f : List Char) (hne : f ≠ []) (hf : '/' ∉ f) :
    handleNavigateUp false (handleNavigate p f) = NavUp.setPath p ∧
    (noEdgeSep p → noEdgeSep (handleNavigate p f)) := by
  constructor
  · by_cases hp : p = []
    · subst hp
      have h1 : handleNavigate [] f = f := rfl
      rw [h1, handleNavigateUp, if_neg Bool.false_ne_true, if_neg hne,
        splitChar_no_sep '/' f hf]
      rfl
    · have hpath : p ++ '/' :: f ≠ [] := by
        cases p with
        | nil => exact absurd rfl hp
        | cons a l => simp
      have h1 : handleNavigate p f = p ++ '/' :: f := by
        rw [handleNavigate, if_neg hp]
      rw [h1, handleNavigateUp, if_neg Bool.false_ne_true, if_neg hpath,
        splitChar_append_sep, splitChar_no_sep '/' f hf, List.dropLast_concat,
        joinChar_splitChar]
  · intro hedge
    by_cases hp : p = []
    · subst hp
      have h1 : handleNavigate [] f = f := rfl
      rw [h1]
      constructor
      · intro h
        cases f with
        | nil => exact hne rfl
        | cons a l =>
          simp only [List.head?_cons, Option.some.injEq] at h
          exact hf (h ▸ List.mem_cons_self a l)
      · intro h
        exact hf (mem_of_getLast?_eq h)
    · have h1 : handleNavigate p f = p ++ '/' :: f := by
        rw [handleNavigate, if_neg hp]
      rw [h1]
      constructor
      · cases p with
        | nil => exact absurd rfl hp
        | cons a l => exact hedge.1
      · intro h
        rw [List.getLast?_append_cons] at h
        cases f with
        | nil => exact hne rfl
        | cons a l =>
          rw [List.getLast?_cons_cons] at h
          exact hf (mem_of_getLast?_eq h)

/-! ### Upload-pipeline bookkeeping lemmas (claims C1, C2, C5, C6) -/

theorem okUpTo_zero (w : Nat → Bool) (k : Nat) : okUpTo w k 0 = true := rfl

theorem okUpTo_succ (w : Nat → Bool) (k n : Nat) :
    okUpTo w k (n + 1) = (w k && okUpTo w (k + 1) n) := rfl

theorem okUpTo_add (w : Nat → Bool) (m : Nat) :
    ∀ (k n : Nat), okUpTo w k (m + n) = (okUpTo w k m && okUpTo w (k + m) n) := by
  induction m with
  | zero => intro k n; simp [okUpTo_zero]
  | succ m ih =>
    intro k n
    rw [show m + 1 + n = (m + n) + 1 from by omega, okUpTo_succ, okUpTo_succ,
      ih (k + 1) n, Bool.and_assoc, show k + 1 + m = k + (m + 1) from by omega]

theorem processPlanned_all_ok (w : Nat → Bool) :
    ∀ (ps : List String) (k : Nat), okUpTo w k ps.length = true →
      processPlanned w k ps = ps.map fun p => (p, true) := by
  intro ps
  induction ps with
  | nil => intro k _; rfl
  | cons p ps ih =>
    intro k h
    rw [List.length_cons, okUpTo_succ, Bool.and_eq_true] at h
    simp [processPlanned, h.1, ih (k + 1) h.2]

theorem processPlanned_append (w : Nat → Bool) :
    ∀ (ps qs : List String) (k : Nat),
      processPlanned w k (ps ++ qs) =
        if okUpTo w k ps.length then
          processPlanned w k ps ++ processPlanned w (k + ps.length) qs
        else processPlanned w k ps := by
  intro ps qs
  induction ps with
  | nil => intro k; simp [processPlanned, okUpTo_zero]
  | cons p ps ih =>
    intro k
    show processPlanned w k (p :: (ps ++ qs)) = _
    by_cases hw : w k
    · have h1 : processPlanned w k (p :: (ps ++ qs)) =
          (p, true) :: processPlanned w (k + 1) (ps ++ qs) := by
        simp [processPlanned, hw]
      have h2 : processPlanned w k (p :: ps) = (p, true) :: processPlanned w (k + 1) ps := by
        simp [processPlanned, hw]
      rw [h1, h2, ih (k + 1), List.length_cons, okUpTo_succ, hw, Bool.true_and]
      by_cases hrest : okUpTo w (k + 1) ps.length
      · rw [if_pos hrest, if_pos hrest, List.cons_append,
          show k + (ps.length + 1) = k + 1 + ps.length from by omega]
      · rw [if_neg hrest, if_neg hrest]
    · simp [processPlanned, hw, okUpTo_succ]

theorem processPlanned_firstFail (w : Nat → Bool) :
    ∀ (ps : List String) (k j : Nat) (hj : j < ps.length),
      (∀ i, i < j → w (k + i) = true) → w (k + j) = false →
      processPlanned w k ps =
        (ps.take j).map (fun p => (p, true)) ++ [(ps.get ⟨j, hj⟩, false)] := by
  intro ps
  induction ps with
  | nil => intro k j hj _ _; simp at hj
  | cons p ps ih =>
    intro k j hj hb hf
    cases j with
    | zero =>
      have hwk : w k = false := by simpa using hf
      simp [processPlanned, hwk]
    | succ j =>
      have hwk : w k = true := by simpa using hb 0 (Nat.succ_pos j)
      have ih2 := ih (k + 1) j (by simpa using hj)
        (fun i hi => by
          rw [show k + 1 + i = k + (i + 1) from by omega]
          exact hb (i + 1) (by omega))
        (by rw [show k + 1 + j = k + (j + 1) from by omega]; exact hf)
      simp [processPlanned, hwk, ih2]

theorem writeEvents_append (a b : List Ev) :
    writeEvents (a ++ b) = writeEvents a ++ writeEvents b :=
  List.filterMap_append a b _

theorem statusEvents_append (a b : List Ev) :
    statusEvents (a ++ b) = statusEvents a ++ statusEvents b :=
  List.filterMap_append a b _

theorem countRefresh_append (a b : List Ev) :
    countRefresh (a ++ b) = countRefresh a + countRefresh b :=
  List.countP_append _ a b

theorem writeEvents_map_write (l : List (String × Bool)) :
    writeEvents (l.map fun pb => Ev.write pb.1 pb.2) = l := by
  induction l with
  | nil => rfl
  | cons pb l ih => simp [writeEvents, List.filterMap_cons] at ih ⊢; exact ih

theorem statusEvents_map_write (l : List (String × Bool)) :
    statusEvents (l.map fun pb => Ev.write pb.1 pb.2) = [] := by
  induction l with
  | nil => rfl
  | cons pb l ih => simpa [statusEvents, List.filterMap_cons] using ih

theorem countRefresh_map_write (l : List (String × Bool)) :
    countRefresh (l.map fun pb => Ev.write pb.1 pb.2) = 0 := by
  induction l with
  | nil => rfl
  | cons pb l ih => simpa [countRefresh] using ih

theorem writeEvents_cons (e : Ev) (l : List Ev) :
    writeEvents (e :: l) =
      (match e with | Ev.write p ok => [(p, ok)] | _ => []) ++ writeEvents l := by
  cases e <;> rfl

theorem statusEvents_cons (e : Ev) (l : List Ev) :
    statusEvents (e :: l) =
      (match e with | Ev.setStatus m => [m] | _ => []) ++ statusEvents l := by
  cases e <;> rfl

theorem countRefresh_cons (e : Ev) (l : List Ev) :
    countRefresh (e :: l) =
      (match e with | Ev.refresh => 1 | _ => 0) + countRefresh l := by
  cases e <;> simp [countRefresh, List.countP_cons, Nat.add_comm]

theorem runZipEntries_cons_dir (cur : String) (w : Nat → Bool) (k : Nat) (e : ZipEntry)
    (es : List ZipEntry) (hd : e.dir = true) :
    runZipEntries cur w k (e :: es) = runZipEntries cur w k es := by
  simp [runZipEntries, hd]

theorem runZipEntries_cons_ok (cur : String) (w : Nat → Bool) (k : Nat) (e : ZipEntry)
    (es : List ZipEntry) (hd : e.dir = false) (hw : w k = true) :
    runZipEntries cur w k (e :: es) =
      (Ev.write (joinPath cur e.name) true :: (runZipEntries cur w (k + 1) es).1,
       (runZipEntries cur w (k + 1) es).2) := by
  simp [runZipEntries, hd, hw]

theorem runZipEntries_cons_fail (cur : String) (w : Nat → Bool) (k : Nat) (e : ZipEntry)
    (es : List ZipEntry) (hd : e.dir = false) (hw : w k = false) :
    runZipEntries cur w k (e :: es) =
      ([Ev.write (joinPath cur e.name) false], k + 1, false) := by
  simp [runZipEntries, hd, hw]

/-- The events, next write index and completion flag of the archive entry
loop, expressed through the planned write paths. -/
theorem runZipEntries_spec (cur : String) (w : Nat → Bool) (es : List ZipEntry) :
    ∀ k, (runZipEntries cur w k es).1 =
        (processPlanned w k (zipWrites cur es)).map (fun pb => Ev.write pb.1 pb.2) ∧
      (runZipEntries cur w k es).2.1 = k + (processPlanned w k (zipWrites cur es)).length ∧
      (runZipEntries cur w k es).2.2 = okUpTo w k (zipWrites cur es).length := by
  induction es with
  | nil => intro k; exact ⟨rfl, by simp [runZipEntries, zipWrites, processPlanned], rfl⟩
  | cons e es ih =>
    intro k
    by_cases hd : e.dir
    · have hzw : zipWrites cur (e :: es) = zipWrites cur es := by simp [zipWrites, hd]
      simpa only [runZipEntries_cons_dir cur w k e es hd, hzw] using ih k
    · have hd2 : e.dir = false := Bool.eq_false_iff.mpr hd
      have hzw : zipWrites cur (e :: es) = joinPath cur e.name :: zipWrites cur es := by
        simp [zipWrites, hd2]
      by_cases hw : w k
      · obtain ⟨ih1, ih2, ih3⟩ := ih (k + 1)
        have hpp : processPlanned w k (joinPath cur e.name :: zipWrites cur es) =
            (joinPath cur e.name, true) :: processPlanned w (k + 1) (zipWrites cur es) := by
          simp [processPlanned, hw]
        rw [runZipEntries_cons_ok cur w k e es hd2 hw, hzw, hpp]
        refine ⟨?_, ?_, ?_⟩
        · simp [ih1]
        · simp only [ih2, List.length_cons]
          omega
        · rw [List.length_cons, okUpTo_succ, hw, Bool.true_and]
          exact ih3
      · have hw2 : w k = false := Bool.eq_false_iff.mpr hw
        have hpp : processPlanned w k (joinPath cur e.name :: zipWrites cur es) =
            [(joinPath cur e.name, false)] := by
          simp [processPlanned, hw2]
        rw [runZipEntries_cons_fail cur w k e es hd2 hw2, hzw, hpp]
        refine ⟨rfl, rfl, ?_⟩
        rw [List.length_cons, okUpTo_succ, hw2, Bool.false_and]

theorem runSelections_cons_zip_ok (cur : String) (w : Nat → Bool) (k : Nat) (f : Selection)
    (fs : List Selection) (hz : endsWithZip f.name = true)
    (hok : (runZipEntries cur w k f.zipEntries).2.2 = true) :
    runSelections cur w k (f :: fs) =
      ((Ev.setStatus ("Extracting " ++ f.name ++ "...") ::
          (runZipEntries cur w k f.zipEntries).1) ++
        (runSelections cur w (runZipEntries cur w k f.zipEntries).2.1 fs).1,
       (runSelections cur w (runZipEntries cur w k f.zipEntries).2.1 fs).2) := by
  simp [runSelections, hz, hok]

theorem runSelections_cons_zip_fail (cur : String) (w : Nat → Bool) (k : Nat) (f : Selection)
    (fs : List Selection) (hz : endsWithZip f.name = true)
    (hok : (runZipEntries cur w k f.zipEntries).2.2 = false) :
    runSelections cur w k (f :: fs) =
      (Ev.setStatus ("Extracting " ++ f.name ++ "...") ::
          (runZipEntries cur w k f.zipEntries).1,
       (runZipEntries cur w k f.zipEntries).2) := by
  simp [runSelections, hz, hok]

theorem runSelections_cons_reg_ok (cur : String) (w : Nat → Bool) (k : Nat) (f : Selection)
    (fs : List Selection) (hz : endsWithZip f.name = false) (hw : w k = true) :
    runSelections cur w k (f :: fs) =
      (Ev.write (joinPath cur
          (if f.webkitRelativePath = "" then f.name else f.webkitRelativePath)) true ::
        (runSelections cur w (k + 1) fs).1,
       (runSelections cur w (k + 1) fs).2) := by
  simp [runSelections, hz, hw]

theorem runSelections_cons_reg_fail (cur : String) (w : Nat → Bool) (k : Nat) (f : Selection)
    (fs : List Selection) (hz : endsWithZip f.name = false) (hw : w k = false) :
    runSelections cur w k (f :: fs) =
      ([Ev.write (joinPath cur
          (if f.webkitRelativePath = "" then f.name else f.webkitRelativePath)) false],
       k + 1, false) := by
  simp [runSelections, hz, hw]

/-- The write events, next write index, completion flag and refresh count
of the selection loop, expressed through the planned write paths. -/
theorem runSelections_spec (cur : String) (w : Nat → Bool) (fs : List Selection) :
    ∀ k, writeEvents (runSelections cur w k fs).1 =
        processPlanned w k (plannedWrites cur fs) ∧
      (runSelections cur w k fs).2.1 = k + (processPlanned w k (plannedWrites cur fs)).length ∧
      (runSelections cur w k fs).2.2 = okUpTo w k (plannedWrites cur fs).length ∧
      countRefresh (runSelections cur w k fs).1 = 0 := by
  induction fs with
  | nil => intro k; exact ⟨rfl, by simp [runSelections, plannedWrites, processPlanned], rfl, rfl⟩
  | cons f fs ih =>
    intro k
    by_cases hz : endsWithZip f.name
    · obtain ⟨z1, z2, z3⟩ := runZipEntries_spec cur w f.zipEntries k
      have hpw : plannedWrites cur (f :: fs) =
          zipWrites cur f.zipEntries ++ plannedWrites cur fs := by
        simp [plannedWrites, hz]
      have happ := processPlanned_append w (zipWrites cur f.zipEntries)
        (plannedWrites cur fs) k
      by_cases hzc : (runZipEntries cur w k f.zipEntries).2.2
      · have hok : okUpTo w k (zipWrites cur f.zipEntries).length = true := z3 ▸ hzc
        have hlen : (processPlanned w k (zipWrites cur f.zipEntries)).length =
            (zipWrites cur f.zipEntries).length := by
          rw [processPlanned_all_ok w _ k hok, List.length_map]
        rw [if_pos hok] at happ
        have hidx : (runZipEntries cur w k f.zipEntries).2.1 =
            k + (zipWrites cur f.zipEntries).length := by rw [z2, hlen]
        obtain ⟨s1, s2, s3, s4⟩ := ih (k + (zipWrites cur f.zipEntries).length)
        rw [runSelections_cons_zip_ok cur w k f fs hz hzc, hpw, happ, hidx]
        refine ⟨?_, ?_, ?_, ?_⟩
        · rw [writeEvents_append, writeEvents_cons, z1, writeEvents_map_write, s1]
          all_goals rfl
        · rw [s2, List.length_append, hlen]
          all_goals omega
        · rw [s3, List.length_append, okUpTo_add, hok, Bool.true_and]
        · rw [countRefresh_append, countRefresh_cons, z1, countRefresh_map_write, s4]
          all_goals rfl
      · have hzc2 : (runZipEntries cur w k f.zipEntries).2.2 = false :=
          Bool.eq_false_iff.mpr hzc
        have hok : okUpTo w k (zipWrites cur f.zipEntries).length = false := z3 ▸ hzc2
        rw [if_neg (by simp [hok])] at happ
        rw [runSelections_cons_zip_fail cur w k f fs hz hzc2, hpw, happ]
        refine ⟨?_, ?_, ?_, ?_⟩
        · rw [writeEvents_cons, z1, writeEvents_map_write]
          all_goals rfl
        · exact z2
        · rw [z3, hok, List.length_append, okUpTo_add, hok, Bool.false_and]
        · rw [countRefresh_cons, z1, countRefresh_map_write]
          all_goals rfl
    · have hz2 : endsWithZip f.name = false := Bool.eq_false_iff.mpr hz
      have hpw : plannedWrites cur (f :: fs) =
          joinPath cur (if f.webkitRelativePath = "" then f.name else f.webkitRelativePath) ::
            plannedWrites cur fs := by
        simp [plannedWrites, hz2]
      by_cases hw : w k
      · obtain ⟨s1, s2, s3, s4⟩ := ih (k + 1)
        have hpp : processPlanned w k (plannedWrites cur (f :: fs)) =
            (joinPath cur (if f.webkitRelativePath = "" then f.name else f.webkitRelativePath),
              true) :: processPlanned w (k + 1) (plannedWrites cur fs) := by
          rw [hpw]
          simp [processPlanned, hw]
        rw [runSelections_cons_reg_ok cur w k f fs hz2 hw, hpp]
        refine ⟨?_, ?_, ?_, ?_⟩
        · rw [writeEvents_cons, s1]
          all_goals rfl
        · simp only [s2, List.length_cons]
          all_goals omega
        · rw [hpw, List.length_cons, okUpTo_succ, hw, Bool.true_and]
          exact s3
        · rw [countRefresh_cons, s4]
          all_goals rfl
      · have hw2 : w k = false := Bool.eq_false_iff.mpr hw
        have hpp : processPlanned w k (plannedWrites cur (f :: fs)) =
            [(joinPath cur (if f.webkitRelativePath = "" then f.name else f.webkitRelativePath),
              false)] := by
          rw [hpw]
          simp [processPlanned, hw2]
        rw [runSelections_cons_reg_fail cur w k f fs hz2 hw2, hpp]
        refine ⟨rfl, rfl, ?_, rfl⟩
        rw [hpw, List.length_cons, okUpTo_succ, hw2, Bool.false_and]

/-- The selection loop updates the status only for archive selections. -/
theorem runSelections_status_no_zip (cur : String) (w : Nat → Bool) (fs : List Selection) :
    ∀ k, (∀ f ∈ fs, endsWithZip f.name = false) →
      statusEvents (runSelections cur w k fs).1 = [] := by
  induction fs with
  | nil => intro k _; rfl
  | cons f fs ih =>
    intro k hnz
    have hz : endsWithZip f.name = false := hnz f (List.mem_cons_self f fs)
    by_cases hw : w k
    · rw [runSelections_cons_reg_ok cur w k f fs hz hw, statusEvents_cons]
      simpa using ih (k + 1) (fun g hg => hnz g (List.mem_cons_of_mem f hg))
    · rw [runSelections_cons_reg_fail cur w k f fs hz (Bool.eq_false_iff.mpr hw)]
      rfl

theorem okUpTo_const_true (k n : Nat) : okUpTo (fun _ => true) k n = true := by
  simp [okUpTo]

theorem okUpTo_false_of_fail (w : Nat → Bool) (n j : Nat) (hj : j < n) (hf : w j = false) :
    okUpTo w 0 n = false := by
  apply Bool.eq_false_iff.mpr
  intro h
  have hmem : j ∈ List.range' 0 n := by
    rw [List.mem_range'_1]
    omega
  have := List.all_eq_true.mp h j hmem
  rw [hf] at this
  exact Bool.false_ne_true this

/-- Unfolding of the upload pipeline for a non-empty batch with a token
present. -/
theorem handleFileUpload_run (cur : String) (files : List Selection) (w : Nat → Bool)
    (hne : files ≠ []) :
    handleFileUpload true cur files w =
      Ev.setShowActions false :: Ev.setUploading true ::
        Ev.setStatus ("Processing " ++ toString files.length ++ " files...") ::
        ((runSelections cur w 0 files).1 ++
          (if (runSelections cur w 0 files).2.2 then
            [Ev.setStatus "Upload complete!", Ev.refresh]
           else [Ev.setStatus "Error during upload."]) ++
          [Ev.setUploading false, Ev.clearInputs]) := by
  have hempty : files.isEmpty = false := by
    cases files with
    | nil => exact absurd rfl hne
    | cons a l => rfl
  simp [handleFileUpload, hempty]

/-- Claim C1: uploading an archive selection writes exactly once per
non-directory entry, in container-native order, at the path joining the
current directory with the entry name, and writes nothing for directory
markers. -/
theorem zip_upload_writes (cur name rp : String) (entries : List ZipEntry)
    (h : endsWithZip name = true) :
    writeEvents (handleFileUpload true cur [⟨name, rp, entries⟩] (fun _ => true)) =
      (entries.filter fun e => !e.dir).map fun e => (joinPath cur e.name, true) := by
  obtain ⟨s1, s2, s3, s4⟩ := runSelections_spec cur (fun _ => true) [⟨name, rp, entries⟩] 0
  have hflag : (runSelections cur (fun _ => true) 0 [⟨name, rp, entries⟩]).2.2 = true := by
    rw [s3, okUpTo_const_true]
  have hpw : plannedWrites cur [⟨name, rp, entries⟩] = zipWrites cur entries := by
    simp [plannedWrites, h]
  rw [handleFileUpload_run cur _ _ (by simp), writeEvents_cons, writeEvents_cons,
    writeEvents_cons, writeEvents_append, writeEvents_append, hflag, if_pos rfl, s1, hpw,
    processPlanned_all_ok _ _ _ (okUpTo_const_true 0 _), zipWrites, List.map_map]
  simp [writeEvents]

/-- Claim C1 witness: the specified example — an archive with entries
readme.txt, src/ (directory) and src/main.go uploaded in directory proj
produces exactly the two writes proj/readme.txt and proj/src/main.go. -/
theorem zip_upload_writes_witness :
    endsWithZip "bundle.zip" = true ∧
    writeEvents (handleFileUpload true "proj"
        [⟨"bundle.zip", "", [⟨"readme.txt", false⟩, ⟨"src/", true⟩, ⟨"src/main.go", false⟩]⟩]
        (fun _ => true)) =
      [("proj/readme.txt", true), ("proj/src/main.go", true)] :=
  ⟨by decide,
   (zip_upload_writes "proj" "bundle.zip" ""
      [⟨"readme.txt", false⟩, ⟨"src/", true⟩, ⟨"src/main.go", false⟩]
      (by decide)).trans (by decide)⟩

/-- Claim C2: when the write at position j is the first to fail, the
pipeline commits exactly the writes before it, attempts the failing one,
attempts none after it, and the last reported status is the error
message, not success. -/
theorem upload_failure_aborts (cur : String) (files : List Selection) (writeOk : Nat → Bool)
    (j : Nat) (hj : j < (plannedWrites cur files).length)
    (hb : ∀ i, i < j → writeOk i = true) (hf : writeOk j = false) :
    writeEvents (handleFileUpload true cur files writeOk) =
      ((plannedWrites cur files).take j).map (fun p => (p, true)) ++
        [((plannedWrites cur files).get ⟨j, hj⟩, false)] ∧
    (statusEvents (handleFileUpload true cur files writeOk)).getLast? =
      some "Error during upload." := by
  have hne : files ≠ [] := by
    intro hnil
    subst hnil
    simp [plannedWrites] at hj
  have hfail : okUpTo writeOk 0 (plannedWrites cur files).length = false :=
    okUpTo_false_of_fail writeOk _ j hj hf
  obtain ⟨s1, s2, s3, s4⟩ := runSelections_spec cur writeOk files 0
  have hflag : (runSelections cur writeOk 0 files).2.2 = false := by rw [s3, hfail]
  have hff := processPlanned_firstFail writeOk (plannedWrites cur files) 0 j hj
    (fun i hi => by simpa using hb i hi) (by simpa using hf)
  rw [handleFileUpload_run cur files writeOk hne]
  constructor
  · rw [writeEvents_cons, writeEvents_cons, writeEvents_cons, writeEvents_append,
      writeEvents_append, hflag, if_neg Bool.false_ne_true, s1, hff]
    simp [writeEvents]
  · rw [statusEvents_cons, statusEvents_cons, statusEvents_cons, statusEvents_append,
      statusEvents_append, hflag, if_neg Bool.false_ne_true]
    simp only [statusEvents, List.filterMap_cons, List.filterMap_nil, List.nil_append,
      List.append_nil]
    rw [List.getLast?_append_of_ne_nil _ (by simp), List.getLast?_append_of_ne_nil _ (by simp)]
    rfl

/-- Claim C2 witness: with the second of three queued uploads failing,
exactly one file commits before it, none after, and the last status is
the error message. -/
theorem upload_failure_aborts_witness :
    (1 < (plannedWrites ""
        [⟨"a.txt", "", []⟩, ⟨"b.txt", "", []⟩, ⟨"c.txt", "", []⟩]).length ∧
      decide ((1 : Nat) ≠ 1) = false) ∧
    writeEvents (handleFileUpload true ""
        [⟨"a.txt", "", []⟩, ⟨"b.txt", "", []⟩, ⟨"c.txt", "", []⟩]
        (fun i => decide (i ≠ 1))) = [("a.txt", true), ("b.txt", false)] ∧
    (statusEvents (handleFileUpload true ""
        [⟨"a.txt", "", []⟩, ⟨"b.txt", "", []⟩, ⟨"c.txt", "", []⟩]
        (fun i => decide (i ≠ 1)))).getLast? = some "Error during upload." :=
  ⟨⟨by decide, by decide⟩,
   ((upload_failure_aborts ""
      [⟨"a.txt", "", []⟩, ⟨"b.txt", "", []⟩, ⟨"c.txt", "", []⟩]
      (fun i => decide (i ≠ 1)) 1 (by decide)
      (fun i hi => by
        have : i = 0 := by omega
        subst this
        decide)
      (by decide)).1).trans (by decide),
   (upload_failure_aborts ""
      [⟨"a.txt", "", []⟩, ⟨"b.txt", "", []⟩, ⟨"c.txt", "", []⟩]
      (fun i => decide (i ≠ 1)) 1 (by decide)
      (fun i hi => by
        have : i = 0 := by omega
        subst this
        decide)
      (by decide)).2⟩

/-- Claim C5 counterexample: a two-file batch whose second write fails
performs no refresh at all — the listing is not refreshed exactly once on
an aborted batch. -/
theorem upload_refresh_counterexample :
    countRefresh (handleFileUpload true "" [⟨"a.txt", "", []⟩, ⟨"b.txt", "", []⟩]
      (fun i => decide (i = 0))) = 0 ∧
    countRefresh (handleFileUpload true "" [⟨"a.txt", "", []⟩, ⟨"b.txt", "", []⟩]
      (fun i => decide (i = 0))) ≠ 1 :=
  ⟨by decide, by decide⟩

/-- Claim C5 as amended: the current directory listing is refreshed
exactly once when every planned write of a non-empty batch succeeds, and
not at all when the batch is empty or a write fails. -/
theorem upload_refresh_iff_success (cur : String) (files : List Selection)
    (writeOk : Nat → Bool) :
    countRefresh (handleFileUpload true cur files writeOk) =
      if files.isEmpty then 0
      else if okUpTo writeOk 0 (plannedWrites cur files).length then 1 else 0 := by
  cases hfl : files with
  | nil => rfl
  | cons f fs =>
    obtain ⟨s1, s2, s3, s4⟩ := runSelections_spec cur writeOk (f :: fs) 0
    rw [handleFileUpload_run cur (f :: fs) writeOk (by simp)]
    simp only [countRefresh_cons, countRefresh_append, s4, s3, List.isEmpty_cons,
      Bool.false_eq_true, if_false]
    by_cases hok : okUpTo writeOk 0 (plannedWrites cur (f :: fs)).length
    · rw [if_pos hok, if_pos hok]
      simp [countRefresh]
    · rw [if_neg hok, if_neg hok]
      simp [countRefresh]

/-- Claim C6 counterexample: in a successful two-file batch no status
update occurs between the first write and the second — there is no
per-file progress report after each individual write. -/
theorem upload_no_status_between_writes :
    statusBetweenWrites (handleFileUpload true "" [⟨"a.txt", "", []⟩, ⟨"b.txt", "", []⟩]
      (fun _ => true)) = false := by decide

/-- Claim C6 as amended: for a batch of non-archive selections the status
text is updated exactly twice — once when the batch starts and once when
it finishes (success or error) — with no per-file updates in between. -/
theorem upload_status_batch_level (cur : String) (files : List Selection)
    (writeOk : Nat → Bool) (hne : files ≠ [])
    (hnz : ∀ f ∈ files, endsWithZip f.name = false) :
    statusEvents (handleFileUpload true cur files writeOk) =
      ["Processing " ++ toString files.length ++ " files...",
       if okUpTo writeOk 0 (plannedWrites cur files).length then "Upload complete!"
       else "Error during upload."] := by
  obtain ⟨s1, s2, s3, s4⟩ := runSelections_spec cur writeOk files 0
  have hs := runSelections_status_no_zip cur writeOk files 0 hnz
  rw [handleFileUpload_run cur files writeOk hne]
  simp only [statusEvents_cons, statusEvents_append, hs, s3]
  by_cases hok : okUpTo writeOk 0 (plannedWrites cur files).length
  · rw [if_pos hok, if_pos hok]
    simp [statusEvents]
  · rw [if_neg hok, if_neg hok]
    simp [statusEvents]

/-- Claim C6 amended-claim witness: a concrete two-file batch reports
exactly the batch-start and batch-end statuses. -/
theorem upload_status_batch_level_witness :
    (([⟨"a.txt", "", []⟩, ⟨"b.txt", "", []⟩] : List Selection) ≠ [] ∧
      ∀ f ∈ ([⟨"a.txt", "", []⟩, ⟨"b.txt", "", []⟩] : List Selection),
        endsWithZip f.name = false) ∧
    statusEvents (handleFileUpload true "" [⟨"a.txt", "", []⟩, ⟨"b.txt", "", []⟩]
        (fun _ => true)) = ["Processing 2 files...", "Upload complete!"] :=
  ⟨⟨by decide, by decide⟩,
   (upload_status_batch_level "" [⟨"a.txt", "", []⟩, ⟨"b.txt", "", []⟩] (fun _ => true)
      (by decide) (by decide)).trans (by decide)⟩

/-- Claim C10 witness: navigating from "src" into "lib" and back up. -/
theorem navigate_up_inverse_witness :
    ("lib".data ≠ [] ∧ '/' ∉ "lib".data) ∧
    handleNavigateUp false (handleNavigate "src".data "lib".data) = NavUp.setPath "src".data ∧
    noEdgeSep (handleNavigate "src".data "lib".data) :=
  ⟨⟨by decide, by decide⟩,
   (navigate_up_inverse "src".data "lib".data (by decide) (by decide)).1,
   (navigate_up_inverse "src".data "lib".data (by decide) (by decide)).2
     ⟨by decide, by decide⟩⟩

end GitLite

namespace GitLite

/-! ### Ordering lemmas for the listing sort (claim C3) -/

theorem lexOrdNat_cons_lt (a b : Nat) (as bs : List Nat) :
    lexOrdNat (a :: as) (b :: bs) = Ordering.lt ↔
      a < b ∨ (a = b ∧ lexOrdNat as bs = Ordering.lt) := by
  simp only [lexOrdNat]
  by_cases hab : a < b
  · simp [hab]
  · by_cases hba : b < a
    · rw [if_neg hab, if_pos hba]
      constructor
      · intro h
        exact Ordering.noConfusion h
      · rintro (h | ⟨h, _⟩) <;> omega
    · have hab2 : a = b := by omega
      simp [hab, hba, hab2]

theorem lexOrdNat_eq_iff : ∀ (x y : List Nat), lexOrdNat x y = Ordering.eq ↔ x = y
  | [], [] => by simp [lexOrdNat]
  | [], _ :: _ => by simp [lexOrdNat]
  | _ :: _, [] => by simp [lexOrdNat]
  | a :: as, b :: bs => by
    simp only [lexOrdNat, List.cons.injEq]
    by_cases hab : a < b
    · rw [if_pos hab]
      constructor
      · intro h
        exact Ordering.noConfusion h
      · rintro ⟨h, _⟩
        omega
    · by_cases hba : b < a
      · rw [if_neg hab, if_pos hba]
        constructor
        · intro h
          exact Ordering.noConfusion h
        · rintro ⟨h, _⟩
          omega
      · have hab2 : a = b := by omega
        rw [if_neg hab, if_neg hba, lexOrdNat_eq_iff as bs]
        simp [hab2]

theorem lexOrdNat_gt_iff : ∀ (x y : List Nat),
    lexOrdNat x y = Ordering.gt ↔ lexOrdNat y x = Ordering.lt
  | [], [] => by simp [lexOrdNat]
  | [], _ :: _ => by simp [lexOrdNat]
  | _ :: _, [] => by simp [lexOrdNat]
  | a :: as, b :: bs => by
    rw [lexOrdNat_cons_lt]
    simp only [lexOrdNat]
    by_cases hab : a < b
    · rw [if_pos hab]
      constructor
      · intro h
        exact Ordering.noConfusion h
      · rintro (h | ⟨h, _⟩) <;> omega
    · by_cases hba : b < a
      · rw [if_neg hab, if_pos hba]
        simp [hba]
      · have hab2 : a = b := by omega
        rw [if_neg hab, if_neg hba, lexOrdNat_gt_iff as bs]
        simp [hab2, hba]

theorem lexOrdNat_lt_trans : ∀ (x y z : List Nat), lexOrdNat x y = Ordering.lt →
    lexOrdNat y z = Ordering.lt → lexOrdNat x z = Ordering.lt
  | [], [], _, h, _ => by simp [lexOrdNat] at h
  | [], _ :: _, [], _, h2 => by simp [lexOrdNat] at h2
  | [], _ :: _, _ :: _, _, _ => by simp [lexOrdNat]
  | _ :: _, [], _, h, _ => by simp [lexOrdNat] at h
  | _ :: _, _ :: _, [], _, h2 => by simp [lexOrdNat] at h2
  | a :: as, b :: bs, c :: cs, h1, h2 => by
    rw [lexOrdNat_cons_lt] at h1 h2 ⊢
    rcases h1 with h1 | ⟨h1e, h1r⟩ <;> rcases h2 with h2 | ⟨h2e, h2r⟩
    · exact Or.inl (by omega)
    · exact Or.inl (by omega)
    · exact Or.inl (by omega)
    · exact Or.inr ⟨by omega, lexOrdNat_lt_trans as bs cs h1r h2r⟩

theorem lexOrdNat_le_trans (x y z : List Nat) (h1 : lexOrdNat x y ≠ Ordering.gt)
    (h2 : lexOrdNat y z ≠ Ordering.gt) : lexOrdNat x z ≠ Ordering.gt := by
  rcases hxy : lexOrdNat x y with _ | _ | _
  · rcases hyz : lexOrdNat y z with _ | _ | _
    · rw [lexOrdNat_lt_trans x y z hxy hyz]
      exact Ordering.noConfusion
    · have h : y = z := (lexOrdNat_eq_iff y z).mp hyz
      rw [← h, hxy]
      exact Ordering.noConfusion
    · exact absurd hyz h2
  · have h : x = y := (lexOrdNat_eq_iff x y).mp hxy
    rw [h]
    exact h2
  · exact absurd hxy h1

theorem localeCompare_nonpos_iff (a b : String) :
    localeCompare a b ≤ 0 ↔
      (lexOrdNat (a.data.map primaryKey) (b.data.map primaryKey) = Ordering.lt ∨
       (a.data.map primaryKey = b.data.map primaryKey ∧
        lexOrdNat (a.data.map tertiaryKey) (b.data.map tertiaryKey) ≠ Ordering.gt)) := by
  unfold localeCompare
  rcases hp : lexOrdNat (a.data.map primaryKey) (b.data.map primaryKey) with _ | _ | _
  · simp
  · rcases ht : lexOrdNat (a.data.map tertiaryKey) (b.data.map tertiaryKey) with _ | _ | _ <;>
      simp [ht, (lexOrdNat_eq_iff _ _).mp hp]
  · constructor
    · intro h
      have h2 : (1 : Int) ≤ 0 := h
      exact absurd h2 (by decide)
    · rintro (h | ⟨h, _⟩)
      · exact Ordering.noConfusion h
      · rw [h, (lexOrdNat_eq_iff _ _).mpr rfl] at hp
        exact Ordering.noConfusion hp

theorem localeCompare_total (a b : String) :
    localeCompare a b ≤ 0 ∨ localeCompare b a ≤ 0 := by
  rw [localeCompare_nonpos_iff, localeCompare_nonpos_iff]
  rcases hp : lexOrdNat (a.data.map primaryKey) (b.data.map primaryKey) with _ | _ | _
  · exact Or.inl (Or.inl rfl)
  · have hmap : a.data.map primaryKey = b.data.map primaryKey :=
      (lexOrdNat_eq_iff _ _).mp hp
    rcases ht : lexOrdNat (a.data.map tertiaryKey) (b.data.map tertiaryKey) with _ | _ | _
    · exact Or.inl (Or.inr ⟨hmap, by simp [ht]⟩)
    · exact Or.inl (Or.inr ⟨hmap, by simp [ht]⟩)
    · refine Or.inr (Or.inr ⟨hmap.symm, ?_⟩)
      rw [(lexOrdNat_gt_iff _ _).mp ht]
      exact Ordering.noConfusion
  · exact Or.inr (Or.inl ((lexOrdNat_gt_iff _ _).mp hp))

theorem localeCompare_trans (a b c : String) (h1 : localeCompare a b ≤ 0)
    (h2 : localeCompare b c ≤ 0) : localeCompare a c ≤ 0 := by
  rw [localeCompare_nonpos_iff] at h1 h2 ⊢
  rcases h1 with h1 | ⟨h1m, h1t⟩ <;> rcases h2 with h2 | ⟨h2m, h2t⟩
  · exact Or.inl (lexOrdNat_lt_trans _ _ _ h1 h2)
  · rw [← h2m]
    exact Or.inl h1
  · rw [h1m]
    exact Or.inl h2
  · exact Or.inr ⟨h1m.trans h2m, lexOrdNat_le_trans _ _ _ h1t h2t⟩

theorem cmpEntries_total (a b : FileEntry) : cmpEntries a b ≤ 0 ∨ cmpEntries b a ≤ 0 := by
  cases ha : a.type <;> cases hb : b.type <;> simp [cmpEntries, ha, hb] <;>
    exact localeCompare_total a.name b.name

theorem cmpEntries_trans (a b c : FileEntry) (h1 : cmpEntries a b ≤ 0)
    (h2 : cmpEntries b c ≤ 0) : cmpEntries a c ≤ 0 := by
  cases ha : a.type <;> cases hb : b.type <;> cases hc : c.type <;>
    simp [cmpEntries, ha, hb, hc] at h1 h2 ⊢ <;>
    exact localeCompare_trans a.name b.name c.name h1 h2

theorem insertEntry_perm (x : FileEntry) (l : List FileEntry) :
    List.Perm (insertEntry x l) (x :: l) := by
  induction l with
  | nil => exact List.Perm.refl _
  | cons y ys ih =>
    by_cases h : cmpEntries x y ≤ 0
    · simp [insertEntry, h]
    · simp only [insertEntry, if_neg h]
      exact (ih.cons y).trans (List.Perm.swap x y ys)

theorem sortContents_perm (l : List FileEntry) : List.Perm (sortContents l) l := by
  induction l with
  | nil => exact List.Perm.refl _
  | cons x xs ih =>
    exact (insertEntry_perm x (sortContents xs)).trans (ih.cons x)

theorem insertEntry_pairwise (x : FileEntry) (l : List FileEntry)
    (hl : l.Pairwise fun a b => cmpEntries a b ≤ 0) :
    (insertEntry x l).Pairwise fun a b => cmpEntries a b ≤ 0 := by
  induction l with
  | nil => simp [insertEntry]
  | cons y ys ih =>
    rcases List.pairwise_cons.mp hl with ⟨hy, hys⟩
    by_cases h : cmpEntries x y ≤ 0
    · simp only [insertEntry, if_pos h]
      refine List.pairwise_cons.mpr ⟨?_, hl⟩
      intro z hz
      rcases List.mem_cons.mp hz with rfl | hz2
      · exact h
      · exact cmpEntries_trans x y z h (hy z hz2)
    · simp only [insertEntry, if_neg h]
      refine List.pairwise_cons.mpr ⟨?_, ih hys⟩
      intro z hz
      rcases List.mem_cons.mp ((insertEntry_perm x ys).mem_iff.mp hz) with hzx | hz2
      · rw [hzx]
        rcases cmpEntries_total x y with h1 | h1
        · exact absurd h1 h
        · exact h1
      · exact hy z hz2

theorem sortContents_pairwise (l : List FileEntry) :
    (sortContents l).Pairwise fun a b => cmpEntries a b ≤ 0 := by
  induction l with
  | nil => simp [sortContents]
  | cons x xs ih => exact insertEntry_pairwise x (sortContents xs) ih

/-- Claim C3 counterexample: with the file entries named "B" and "a" the
displayed order is ["a", "B"] (the locale-aware comparator puts lowercase
a before uppercase B), which violates case-sensitive lexicographic order
by name ("B" < "a" by code point). -/
theorem sortContents_not_lexicographic :
    sortContents
        [⟨"B", "B", "1", 0, EntryKind.file, none⟩, ⟨"a", "a", "2", 0, EntryKind.file, none⟩] =
      [⟨"a", "a", "2", 0, EntryKind.file, none⟩, ⟨"B", "B", "1", 0, EntryKind.file, none⟩] ∧
    ¬ ((sortContents
        [⟨"B", "B", "1", 0, EntryKind.file, none⟩,
         ⟨"a", "a", "2", 0, EntryKind.file, none⟩]).Pairwise
          fun a b => a.type = b.type → csLexLe a.name b.name = true) :=
  ⟨by decide, by decide⟩

/-- Claim C3 as amended: every displayed listing is a permutation of the
fetched entries, sorted by the comparator of the source — all
directory-kind entries precede all file-kind entries, and within each
kind group entries are in the locale-aware localeCompare order on names
(which is not case-sensitive lexicographic order). -/
theorem sortContents_spec (l : List FileEntry) :
    List.Perm (sortContents l) l ∧
    ((sortContents l).Pairwise fun a b => cmpEntries a b ≤ 0) ∧
    ((sortContents l).Pairwise fun a b =>
      a.type = EntryKind.file → b.type = EntryKind.dir → False) ∧
    ((sortContents l).Pairwise fun a b =>
      a.type = b.type → localeCompare a.name b.name ≤ 0) := by
  refine ⟨sortContents_perm l, sortContents_pairwise l, ?_, ?_⟩
  · refine (sortContents_pairwise l).imp ?_
    intro a b hab ha hb
    rw [cmpEntries, if_neg (by rw [ha, hb]; exact fun h => EntryKind.noConfusion h),
      ha] at hab
    simp at hab
  · refine (sortContents_pairwise l).imp ?_
    intro a b hab ht
    rwa [cmpEntries, if_pos ht] at hab

end GitLite

namespace GitLite

theorem char_toNat_lt (c : Char) : c.toNat < 1114112 := by
  rcases c.valid with h | ⟨_, h2⟩
  · simpa [Char.toNat] using Nat.lt_trans h (by norm_num)
  · simpa [Char.toNat] using h2

theorem char_valid_nat (c : Char) : c.toNat < 55296 ∨ (57343 < c.toNat ∧ c.toNat < 1114112) := by
  rcases c.valid with h | ⟨h1, h2⟩
  · exact Or.inl (by simpa [Char.toNat] using h)
  · exact Or.inr ⟨by simpa [Char.toNat] using h1, by simpa [Char.toNat] using h2⟩

theorem toNat_ofNat_byte {n : Nat} (h : n < 55296) : (Char.ofNat n).toNat = n := by
  have hv : Nat.isValidChar n := Or.inl h
  simp only [Char.ofNat, hv, dite_true]
  simp [Char.ofNatAux, Char.toNat, UInt32.toNat, UInt32.ofNatCore]

theorem hexU_hexDigitUpper : ∀ x, x < 16 → isHexUpper (hexDigitUpper x) = true := by decide

theorem hexValUpper_hexDigitUpper : ∀ x, x < 16 → hexValUpper (hexDigitUpper x) = x := by decide

theorem hexVal_hexDigitLower : ∀ x, x < 16 → hexVal (hexDigitLower x) = some x := by decide

theorem sextetVal_sextetChar : ∀ n, n < 64 → sextetVal (sextetChar n) = some n := by decide

theorem sextetChar_ne_eq : ∀ n, n < 64 → sextetChar n ≠ '=' := by decide

theorem percentToByteChars_cons (c : Char) (rest : List Char) (hc : c ≠ '%') :
    percentToByteChars (c :: rest) = c :: percentToByteChars rest := by
  rcases rest with _ | ⟨h, _ | ⟨l, rest2⟩⟩
  · rw [percentToByteChars.eq_def]
    simp [hc]
  · rw [percentToByteChars.eq_def]
    simp [hc]
  · rw [percentToByteChars.eq_def]
    simp [hc]

theorem percentToByteChars_triplet (b : Nat) (hb : b < 256) (rest : List Char) :
    percentToByteChars ('%' :: hexDigitUpper (b / 16) :: hexDigitUpper (b % 16) :: rest) =
      Char.ofNat b :: percentToByteChars rest := by
  rw [percentToByteChars.eq_def]
  have h1 : b / 16 < 16 := by omega
  have h2 : b % 16 < 16 := by omega
  simp only [hexU_hexDigitUpper _ h1, hexU_hexDigitUpper _ h2, Bool.and_self, if_true,
    hexValUpper_hexDigitUpper _ h1, hexValUpper_hexDigitUpper _ h2]
  rw [show 16 * (b / 16) + b % 16 = b from by omega]

theorem isUriUnreserved_lt_128 {c : Char} (h : isUriUnreserved c = true) : c.toNat < 128 := by
  simp only [isUriUnreserved, Bool.or_eq_true, Bool.and_eq_true, decide_eq_true_eq] at h
  omega

theorem isUriUnreserved_ne_percent {c : Char} (h : isUriUnreserved c = true) : c ≠ '%' := by
  intro hc
  subst hc
  simp [isUriUnreserved] at h

theorem utf8EncodeCp_lt_256 {n : Nat} (h : n < 1114112) : ∀ b ∈ utf8EncodeCp n, b < 256 := by
  intro b hb
  unfold utf8EncodeCp at hb
  split_ifs at hb with h1 h2 h3 <;>
    simp only [List.mem_cons, List.not_mem_nil, or_false] at hb
  · omega
  · rcases hb with rfl | rfl <;> omega
  · rcases hb with rfl | rfl | rfl <;> omega
  · rcases hb with rfl | rfl | rfl | rfl <;> omega

theorem utf8EncodeCp_ascii {n : Nat} (h : n < 128) : utf8EncodeCp n = [n] := by
  unfold utf8EncodeCp
  rw [if_pos h]

theorem percentToByteChars_flat (bs : List Nat) (h : ∀ b ∈ bs, b < 256) (rest : List Char) :
    percentToByteChars
        ((bs.flatMap fun b => ['%', hexDigitUpper (b / 16), hexDigitUpper (b % 16)]) ++ rest) =
      bs.map Char.ofNat ++ percentToByteChars rest := by
  induction bs with
  | nil => simp
  | cons b bs ih =>
    rw [List.flatMap_cons, List.append_assoc, List.cons_append, List.cons_append,
      List.cons_append, List.nil_append,
      percentToByteChars_triplet b (h b (List.mem_cons_self b bs)),
      ih (fun x hx => h x (List.mem_cons_of_mem b hx))]
    rfl

theorem percent_encode_bytes (cs : List Char) :
    percentToByteChars (encodeURIComponentChars cs) = (utf8EncodeChars cs).map Char.ofNat := by
  induction cs with
  | nil => rfl
  | cons c cs ih =>
    rw [encodeURIComponentChars, List.flatMap_cons, utf8EncodeChars, List.flatMap_cons,
      List.map_append, ← encodeURIComponentChars, ← utf8EncodeChars]
    by_cases hu : isUriUnreserved c
    · rw [if_pos hu, utf8EncodeCp_ascii (isUriUnreserved_lt_128 hu), List.singleton_append,
        percentToByteChars_cons c _ (isUriUnreserved_ne_percent hu), ih]
      simp [Char.ofNat_toNat]
    · rw [if_neg hu,
        percentToByteChars_flat (utf8EncodeCp c.toNat) (utf8EncodeCp_lt_256 (char_toNat_lt c)) _,
        ih]

theorem map_toNat_ofNat (bs : List Nat) (h : ∀ b ∈ bs, b < 256) :
    bs.map (fun b => (Char.ofNat b).toNat) = bs := by
  induction bs with
  | nil => rfl
  | cons b bs ih =>
    rw [List.map_cons, toNat_ofNat_byte (by have := h b (List.mem_cons_self b bs); omega),
      ih (fun x hx => h x (List.mem_cons_of_mem b hx))]

theorem btoaChars_bytes (bs : List Nat) (h : ∀ b ∈ bs, b < 256) :
    btoaChars (bs.map Char.ofNat) = some (base64EncodeBytes bs) := by
  unfold btoaChars
  have hall : ((bs.map Char.ofNat).all fun c => c.toNat ≤ 255) = true := by
    rw [List.all_eq_true]
    intro c hc
    rcases List.mem_map.mp hc with ⟨b, hb, rfl⟩
    have hb2 := h b hb
    simp only [decide_eq_true_eq]
    rw [toNat_ofNat_byte (by omega)]
    omega
  rw [if_pos hall, List.map_map,
    show (Char.toNat ∘ Char.ofNat) = fun b => (Char.ofNat b).toNat from rfl,
    map_toNat_ofNat bs h]

theorem atobDecode_encode : ∀ (bs : List Nat), (∀ b ∈ bs, b < 256) →
    atobDecode (base64EncodeBytes bs) = some bs
  | [], _ => rfl
  | [a], h => by
    have ha : a < 256 := h a (List.mem_cons_self a [])
    simp only [base64EncodeBytes]
    simp only [atobDecode]
    rw [sextetVal_sextetChar _ (by omega : a / 4 < 64),
      sextetVal_sextetChar _ (by omega : a % 4 * 16 < 64)]
    simp
    omega
  | [a, b], h => by
    have ha : a < 256 := h a (by simp)
    have hb : b < 256 := h b (by simp)
    simp only [base64EncodeBytes]
    simp only [atobDecode]
    rw [sextetVal_sextetChar _ (by omega : a / 4 < 64),
      sextetVal_sextetChar _ (by omega : a % 4 * 16 + b / 16 < 64),
      sextetVal_sextetChar _ (by omega : b % 16 * 4 < 64)]
    simp [sextetChar_ne_eq _ (by omega : b % 16 * 4 < 64)]
    omega
  | a :: b :: c :: rest, h => by
    have ha : a < 256 := h a (by simp)
    have hb : b < 256 := h b (by simp)
    have hc : c < 256 := h c (by simp)
    have ih := atobDecode_encode rest (fun x hx => h x (by simp [hx]))
    simp only [base64EncodeBytes]
    simp only [atobDecode]
    rw [sextetVal_sextetChar _ (by omega : a / 4 < 64),
      sextetVal_sextetChar _ (by omega : a % 4 * 16 + b / 16 < 64),
      sextetVal_sextetChar _ (by omega : b % 16 * 4 + c / 64 < 64),
      sextetVal_sextetChar _ (by omega : c % 64 < 64)]
    simp [sextetChar_ne_eq _ (by omega : b % 16 * 4 + c / 64 < 64),
      sextetChar_ne_eq _ (by omega : c % 64 < 64), ih]
    omega

theorem uriTokens_bytes (bs : List Nat) (h : ∀ b ∈ bs, b < 256) :
    uriTokens (bs.flatMap fun b => byteToPercentHex b) = some (bs.map UriTok.byte) := by
  induction bs with
  | nil => rfl
  | cons b bs ih =>
    have hb : b < 256 := h b (List.mem_cons_self b bs)
    rw [List.flatMap_cons, byteToPercentHex, List.cons_append, List.cons_append,
      List.cons_append, List.nil_append]
    simp only [uriTokens]
    rw [hexVal_hexDigitLower _ (by omega : b / 16 < 16),
      hexVal_hexDigitLower _ (by omega : b % 16 < 16),
      ih (fun x hx => h x (List.mem_cons_of_mem b hx))]
    simp
    omega

theorem contVal_some {b : Nat} (h1 : 128 ≤ b) (h2 : b < 192) : contVal b = some (b - 128) := by
  simp [contVal, h1, h2]

theorem utf8DecodeTokens_encode (cs : List Char) :
    utf8DecodeTokens ((utf8EncodeChars cs).map UriTok.byte) = some cs := by
  induction cs with
  | nil => rfl
  | cons c cs ih =>
    rw [utf8EncodeChars, List.flatMap_cons, List.map_append, ← utf8EncodeChars]
    have hv := char_valid_nat c
    by_cases h1 : c.toNat < 128
    · rw [utf8EncodeCp_ascii h1, List.map_singleton, List.singleton_append]
      simp only [utf8DecodeTokens]
      rw [if_pos h1, ih]
      simp [Char.ofNat_toNat]
    · by_cases h2 : c.toNat < 2048
      · rw [show utf8EncodeCp c.toNat = [192 + c.toNat / 64, 128 + c.toNat % 64] from by
          unfold utf8EncodeCp; rw [if_neg h1, if_pos h2]]
        simp only [List.map_cons, List.map_nil, List.cons_append, List.nil_append]
        simp only [utf8DecodeTokens]
        rw [if_neg (by omega), if_neg (by omega), if_pos (by omega)]
        simp only [utf8Dec2]
        simp only [contVal_some (by omega : 128 ≤ 128 + c.toNat % 64)
          (by omega : 128 + c.toNat % 64 < 192)]
        rw [show (192 + c.toNat / 64 - 192) * 64 + (128 + c.toNat % 64 - 128) = c.toNat from
          by omega]
        rw [if_pos (by omega), ih]
        simp [Char.ofNat_toNat]
      · by_cases h3 : c.toNat < 65536
        · rw [show utf8EncodeCp c.toNat =
              [224 + c.toNat / 4096, 128 + c.toNat / 64 % 64, 128 + c.toNat % 64] from by
            unfold utf8EncodeCp; rw [if_neg h1, if_neg h2, if_pos h3]]
          simp only [List.map_cons, List.map_nil, List.cons_append, List.nil_append]
          simp only [utf8DecodeTokens]
          rw [if_neg (by omega), if_neg (by omega), if_neg (by omega), if_pos (by omega)]
          simp only [utf8Dec3]
          simp only [contVal_some (by omega : 128 ≤ 128 + c.toNat / 64 % 64)
              (by omega : 128 + c.toNat / 64 % 64 < 192),
            contVal_some (by omega : 128 ≤ 128 + c.toNat % 64)
              (by omega : 128 + c.toNat % 64 < 192)]
          rw [show (224 + c.toNat / 4096 - 224) * 4096 + (128 + c.toNat / 64 % 64 - 128) * 64 +
              (128 + c.toNat % 64 - 128) = c.toNat from by omega]
          rw [if_pos (by omega), ih]
          simp [Char.ofNat_toNat]
        · have h4 : c.toNat < 1114112 := char_toNat_lt c
          rw [show utf8EncodeCp c.toNat =
              [240 + c.toNat / 262144, 128 + c.toNat / 4096 % 64, 128 + c.toNat / 64 % 64,
               128 + c.toNat % 64] from by
            unfold utf8EncodeCp; rw [if_neg h1, if_neg h2, if_neg h3]]
          simp only [List.map_cons, List.map_nil, List.cons_append, List.nil_append]
          simp only [utf8DecodeTokens]
          rw [if_neg (by omega), if_neg (by omega), if_neg (by omega), if_neg (by omega),
            if_pos (by omega)]
          simp only [utf8Dec4]
          simp only [contVal_some (by omega : 128 ≤ 128 + c.toNat / 4096 % 64)
              (by omega : 128 + c.toNat / 4096 % 64 < 192),
            contVal_some (by omega : 128 ≤ 128 + c.toNat / 64 % 64)
              (by omega : 128 + c.toNat / 64 % 64 < 192),
            contVal_some (by omega : 128 ≤ 128 + c.toNat % 64)
              (by omega : 128 + c.toNat % 64 < 192)]
          rw [show (240 + c.toNat / 262144 - 240) * 262144 +
              (128 + c.toNat / 4096 % 64 - 128) * 4096 + (128 + c.toNat / 64 % 64 - 128) * 64 +
              (128 + c.toNat % 64 - 128) = c.toNat from by omega]
          rw [if_pos (by omega), ih]
          simp [Char.ofNat_toNat]

theorem flatMap_percentHex (bs : List Nat) (h : ∀ b ∈ bs, b < 256) :
    ((bs.map Char.ofNat).flatMap fun c => byteToPercentHex c.toNat) =
      bs.flatMap fun b => byteToPercentHex b := by
  induction bs with
  | nil => rfl
  | cons b bs ih =>
    rw [List.map_cons, List.flatMap_cons, List.flatMap_cons,
      toNat_ofNat_byte (by have := h b (List.mem_cons_self b bs); omega),
      ih (fun x hx => h x (List.mem_cons_of_mem b hx))]

/-- Claim C4: decoding the base64 encoding of any Unicode string yields
the string back — the encoder operates on the UTF-8 byte sequence of the
string, so the round trip holds for every well-formed Unicode string,
multi-byte characters included. -/
theorem toBase64_fromBase64_roundtrip (s : String) :
    (toBase64 s).bind fromBase64 = some s := by
  have hbytes : ∀ b ∈ utf8EncodeChars s.data, b < 256 := by
    intro b hb
    rw [utf8EncodeChars] at hb
    rcases List.mem_flatMap.mp hb with ⟨c, hc, hbc⟩
    exact utf8EncodeCp_lt_256 (char_toNat_lt c) b hbc
  rw [toBase64, percent_encode_bytes, btoaChars_bytes _ hbytes]
  show fromBase64 (String.mk (base64EncodeBytes (utf8EncodeChars s.data))) = some s
  rw [fromBase64]
  show (atobChars (base64EncodeBytes (utf8EncodeChars s.data))).bind _ = some s
  rw [atobChars, atobDecode_encode _ hbytes]
  show (decodeURIComponentChars (((utf8EncodeChars s.data).map Char.ofNat).flatMap fun c =>
      byteToPercentHex c.toNat)).map String.mk = some s
  rw [flatMap_percentHex _ hbytes, decodeURIComponentChars, uriTokens_bytes _ hbytes]
  show (utf8DecodeTokens ((utf8EncodeChars s.data).map UriTok.byte)).map String.mk = some s
  rw [utf8DecodeTokens_encode]
  rfl

/-- The transcoding round trip evaluated on the multi-byte example of the
specification. -/
theorem toBase64_fromBase64_example :
    (toBase64 "héllo 世界").bind fromBase64 = some "héllo 世界" := by decide

end GitLite
